import Mathlib

/-!
Verification development for the CRE-SCD-BHS opcode stream codec
(`src/main.py` of the repository, plus `src/table_helpers.py`).

The Python program is shallowly embedded: hex strings are `List Char`,
byte buffers are `List Nat` (each element `< 256`), dictionaries keyed by
opcode-number strings are association lists, and the Qt table state
(`table_widget` rows, `original_hex_values`, `undo_stack`, `redo_stack`)
is an explicit `DocState` record.  Python slicing `s[a:b]` is
`(s.drop a).take (b - a)`, `str.replace(" ", "")` is a filter, and
`str.upper()` is `Char.toUpper` mapped over the characters (the
characters relevant to hex validation are ASCII, where Python's `upper`
and Lean's `Char.toUpper` agree).
-/

namespace SCD

/-- The sixteen characters of the Python literal `'0123456789ABCDEF'`
used by the validation check in `track_changes` (src/main.py:883). -/
def hexDigitsU : List Char :=
  ['0', '1', '2', '3', '4', '5', '6', '7', '8', '9', 'A', 'B', 'C', 'D', 'E', 'F']

/-- Value table for hexadecimal digits, upper and lower case, as accepted
by Python's `int(s, 16)` and `bytes.fromhex`. -/
def hexPairs : List (Char × Nat) :=
  [('0', 0), ('1', 1), ('2', 2), ('3', 3), ('4', 4), ('5', 5), ('6', 6), ('7', 7),
   ('8', 8), ('9', 9),
   ('A', 10), ('B', 11), ('C', 12), ('D', 13), ('E', 14), ('F', 15),
   ('a', 10), ('b', 11), ('c', 12), ('d', 13), ('e', 14), ('f', 15)]

/-- Numeric value of one hexadecimal digit character, `none` if the
character is not a hex digit. -/
def hexVal? (c : Char) : Option Nat :=
  (hexPairs.find? (fun p => p.1 == c)).map (·.2)

/-- `s[a:b]` on a Python string, for `a ≤ b` (both non-negative). -/
def pySlice (s : List Char) (a b : Nat) : List Char :=
  (s.drop a).take (b - a)

/-- `s.replace(" ", "")`: drop every space character (only U+0020, which is
all the Python code ever replaces). -/
def stripSpaces (s : List Char) : List Char :=
  s.filter (fun c => c != ' ')

/-- `s.upper()` restricted to the ASCII case mapping, which is what the
hex-validation paths of the program rely on. -/
def upperStr (s : List Char) : List Char :=
  s.map Char.toUpper

/-- `int(s, 16)` with a non-negative hex literal: `none` on the empty
string or on any non-hex character (Python raises `ValueError` there). -/
def intHexAux : List Char → Nat → Option Nat
  | [], acc => some acc
  | c :: t, acc =>
    match hexVal? c with
    | none => none
    | some v => intHexAux t (acc * 16 + v)

/-- `int(s, 16)` as used on the two-character SAT slice in
`parse_scd_data` (src/main.py:696). -/
def intHex? (s : List Char) : Option Nat :=
  match s with
  | [] => none
  | _ => intHexAux s 0

/-- One byte rendered as two uppercase hex characters; this is
`binary_data.hex().upper()` per byte (src/main.py:646). -/
def hexDigitChar (n : Nat) : Char :=
  hexDigitsU.getD n '0'

/-- `binary_data.hex().upper()`: the uppercase hex string of a byte
buffer (src/main.py:646). -/
def bytesToHex : List Nat → List Char
  | [] => []
  | b :: t => hexDigitChar (b / 16) :: hexDigitChar (b % 16) :: bytesToHex t

/-- `bytes.fromhex` applied to a string with all separators already
stripped (src/main.py:1288): pairs of hex digits, failing on odd length
or a non-hex character. -/
def bytesFromHex : List Char → Option (List Nat)
  | [] => some []
  | [_] => none
  | a :: b :: t =>
    match hexVal? a, hexVal? b, bytesFromHex t with
    | some hi, some lo, some rest => some ((hi * 16 + lo) :: rest)
    | _, _, _ => none

/-- `" ".join(s[i:i+2] for i in range(0, len(s), 2))`: regroup a hex
string into space-separated byte pairs (src/main.py:751). -/
def group2 : List Char → List Char
  | [] => []
  | [a] => [a]
  | [a, b] => [a, b]
  | a :: b :: c :: t => a :: b :: ' ' :: group2 (c :: t)

/- ### Character-level facts -/

theorem char_lower_or_fixed (c : Char) :
    (97 ≤ c.toNat ∧ c.toNat < 123 ∧ c = Char.ofNat c.toNat) ∨ c.toUpper = c := by
  by_cases h : c.toNat ≥ 97 ∧ c.toNat ≤ 122
  · exact Or.inl ⟨h.1, Nat.lt_succ_of_le h.2, (Char.ofNat_toNat c).symm⟩
  · right
    unfold Char.toUpper
    exact if_neg h

theorem lower_range_facts :
    ∀ n < 123, 97 ≤ n →
      ((Char.ofNat n).toUpper ≠ ' ' ∧
       (Char.ofNat n).toUpper.toUpper = (Char.ofNat n).toUpper ∧
       ((Char.ofNat n).toUpper ∈ hexDigitsU → (hexVal? (Char.ofNat n)).isSome)) := by
  decide

theorem toUpper_ne_space {c : Char} (h : c ≠ ' ') : c.toUpper ≠ ' ' := by
  rcases char_lower_or_fixed c with ⟨h1, h2, he⟩ | hf
  · rw [he]; exact (lower_range_facts c.toNat h2 h1).1
  · rw [hf]; exact h

theorem toUpper_toUpper (c : Char) : c.toUpper.toUpper = c.toUpper := by
  rcases char_lower_or_fixed c with ⟨h1, h2, he⟩ | hf
  · rw [he]; exact (lower_range_facts c.toNat h2 h1).2.1
  · rw [hf, hf]

theorem hexU_isSome : ∀ c ∈ hexDigitsU, (hexVal? c).isSome := by decide

theorem hexU_toUpper_fix : ∀ c ∈ hexDigitsU, c.toUpper = c := by decide

theorem hexU_ne_space : ∀ c ∈ hexDigitsU, c ≠ ' ' := by decide

theorem toUpper_hexU_isSome {c : Char} (h : c.toUpper ∈ hexDigitsU) :
    (hexVal? c).isSome := by
  rcases char_lower_or_fixed c with ⟨h1, h2, he⟩ | hf
  · rw [he]
    exact (lower_range_facts c.toNat h2 h1).2.2 (he ▸ h)
  · rw [hf] at h
    exact hexU_isSome c h

theorem hexDigitChar_mem (n : Nat) : hexDigitChar n ∈ hexDigitsU := by
  unfold hexDigitChar
  rcases hg : hexDigitsU.get? n with _ | c
  · rw [List.getD_eq_default]
    · decide
    · simpa using List.get?_eq_none.mp hg
  · rw [List.getD_eq_get?, hg]
    exact List.get?_mem hg

theorem mem_bytesToHex {c : Char} {bs : List Nat} (h : c ∈ bytesToHex bs) :
    c ∈ hexDigitsU := by
  induction bs with
  | nil => simp [bytesToHex] at h
  | cons b t ih =>
    simp only [bytesToHex, List.mem_cons] at h
    rcases h with rfl | rfl | h
    · exact hexDigitChar_mem _
    · exact hexDigitChar_mem _
    · exact ih h

theorem hexVal_hexDigitChar : ∀ n < 16, hexVal? (hexDigitChar n) = some n := by decide

/- ### Opcode registry (`parse_opcodes_as_dict`, src/main.py:610-626) -/

/-- One field of the `Bytes` mapping of an opcode definition
(src/main.py:856-858).  `type` is `details.get("Type", "")` and `descr`
is `details.get("Description", "No description available")` as retrieved
by `get_byte_info`. -/
structure ByteField where
  name : String
  type : String
  descr : String
deriving DecidableEq, Repr

/-- One opcode definition as consumed by `parse_scd_data`.
`lengthBytes?` holds the result of
`int(info["Opcode Length"].split()[0])`; `none` models the
`ValueError`/`IndexError` branch of the `try` at src/main.py:718-722 and
736-740 (the definition files never carry negative lengths). -/
structure OpcodeInfo where
  name : String
  lengthBytes? : Option Nat
  descr : String
  bytes : List ByteField
deriving DecidableEq, Repr

/-- The value of `self.current_opcodes`: a dictionary from the opcode
number (a two-character hex string) to the list of `(key, opcode_info)`
pairs, modelled as an association list with distinct keys. -/
abbrev Registry := List (List Char × List (String × OpcodeInfo))

/-- Dictionary lookup `opcode_hex in self.current_opcodes` /
`self.current_opcodes[opcode_hex]` (src/main.py:683-684). -/
def registryLookup (reg : Registry) (key : List Char) : Option (List (String × OpcodeInfo)) :=
  (reg.find? (fun e => e.1 == key)).map (·.2)

/- ### Stream decoder (`parse_scd_data`, src/main.py:665-790) -/

/-- The three opcode numbers given special treatment for
Resident Evil 1.5 (src/main.py:688). -/
def re15Specials : List (List Char) := [['2', 'C'], ['3', 'B'], ['5', '0']]

/-- The distinct `logging.error(...)`-then-`break` exits of the decode
loop, plus the Python failure modes that the loop does not guard
against.  `satInvalid` models the uncaught `ValueError` of
`int(byte4_hex, 16)` at src/main.py:696, `noCandidates` the uncaught
`IndexError` of `opcode_info_list[0]` at src/main.py:733 (unreachable
for registries built by `parse_opcodes_as_dict`), and `outOfFuel` an
infinite loop (possible only for a declared opcode length of 0). -/
inductive ParseError where
  | satTruncated (opcode : List Char) (pos : Nat)
  | satInvalid (opcode : List Char) (pos : Nat)
  | selectFailed (opcode : List Char) (pos : Nat)
  | badLength (opcode : List Char) (pos : Nat)
  | recordTruncated (opcode : List Char) (pos : Nat)
  | noCandidates (pos : Nat)
  | outOfFuel
deriving DecidableEq, Repr

/-- One row inserted into the table by `parse_scd_data`
(src/main.py:753-772): opcode name (column 0), space-grouped uppercase
hex slice (column 1), description (column 2). -/
structure Record where
  name : String
  text : List Char
  descr : String
deriving DecidableEq, Repr

/-- What one run of the decode loop produces: the emitted rows, the
`unknown_opcodes` diagnostic list of `(opcode_hex, position)` pairs, and
the reason decoding stopped (`none` = the loop condition
`position < len(hex_data)` became false). -/
structure ParseResult where
  records : List Record
  unknowns : List (List Char × Nat)
  error : Option ParseError
deriving DecidableEq, Repr

/-- `info["Opcode Name"].endswith("_4p")` (src/main.py:704 and 710),
modelled over the character list of the name. -/
def endsWith4p (s : String) : Bool :=
  ['_', '4', 'p'].isSuffixOf s.data

/-- Selection of the opcode definition for one step of the decode loop
(src/main.py:685-733): the Resident Evil 1.5 disambiguation for opcodes
2C/3B/50 via the SAT byte `hex_data[position+6:position+8]`, the default
first-candidate rule otherwise. -/
def selectStep (game : String) (hexData : List Char) (position : Nat)
    (opcodeHex : List Char) (candidates : List (String × OpcodeInfo)) :
    Except ParseError OpcodeInfo :=
  if game == "Resident Evil 1.5" && re15Specials.contains (upperStr opcodeHex) then
    -- min_length = 8; "Opcode + at least 3 bytes to reach SAT" (src/main.py:690)
    if position + 8 > hexData.length then
      .error (.satTruncated opcodeHex position)
    else
      match intHex? (pySlice hexData (position + 6) (position + 8)) with
      | none => .error (.satInvalid opcodeHex position)
      | some satValue =>
        if satValue > 0x31 then
          match candidates.find? (fun ki => endsWith4p ki.2.name) with
          | some ki => .ok ki.2
          | none => .error (.selectFailed opcodeHex position)
        else
          match candidates.find? (fun ki => !(endsWith4p ki.2.name)) with
          | some ki => .ok ki.2
          | none => .error (.selectFailed opcodeHex position)
  else
    match candidates.head? with
    | some ki => .ok ki.2
    | none => .error (.noCandidates position)

/-- The decode loop of `parse_scd_data` (src/main.py:680-778), fuel-
indexed to make the `while` loop total.  Each iteration reads the opcode
byte `hex_data[position:position+2]`, looks it up, handles the unknown-
opcode case by recording the position and advancing one byte, otherwise
selects a definition (`selectStep`), reads the declared length, checks
that the full record is available, and emits the uppercased,
space-grouped slice as a row. -/
def parseLoop (game : String) (reg : Registry) (hexData : List Char) :
    Nat → Nat → ParseResult
  | 0, _ => ⟨[], [], some .outOfFuel⟩
  | fuel + 1, position =>
    if position < hexData.length then
      let opcodeHex := pySlice hexData position (position + 2)
      match registryLookup reg opcodeHex with
      | none =>
        let rest := parseLoop game reg hexData fuel (position + 2)
        ⟨rest.records, (opcodeHex, position) :: rest.unknowns, rest.error⟩
      | some candidates =>
        match selectStep game hexData position opcodeHex candidates with
        | .error e => ⟨[], [], some e⟩
        | .ok info =>
          match info.lengthBytes? with
          | none => ⟨[], [], some (.badLength opcodeHex position)⟩
          | some opcodeLength =>
            let totalLengthInHex := opcodeLength * 2
            if position + totalLengthInHex > hexData.length then
              ⟨[], [], some (.recordTruncated opcodeHex position)⟩
            else
              let opcodeFullHex := upperStr (pySlice hexData position (position + totalLengthInHex))
              let rest := parseLoop game reg hexData fuel (position + totalLengthInHex)
              ⟨⟨info.name, group2 opcodeFullHex, info.descr⟩ :: rest.records,
               rest.unknowns, rest.error⟩
    else ⟨[], [], none⟩

/-- `parse_scd_data` on a hex string: run the loop from position 0 with
enough fuel for every terminating execution (each iteration of a
terminating run advances the position by at least one). -/
def parse_scd_data (game : String) (reg : Registry) (hexData : List Char) : ParseResult :=
  parseLoop game reg hexData (hexData.length + 1) 0

/- ### Stream encoder (`save_scd_file`, src/main.py:1283-1288) -/

/-- `save_scd_file`'s encode step: concatenate every row's hex cell with
spaces removed, then `bytes.fromhex` (src/main.py:1283-1288).  `none`
models the `except` branch (`ValueError` from `fromhex`). -/
def save_scd_file (texts : List (List Char)) : Option (List Nat) :=
  bytesFromHex ((texts.map stripSpaces).flatten)

/- ### Field resolver (`get_byte_info`, src/main.py:850-870) -/

/-- `byte_length = 1 if byte_type in ["UCHAR", "CHAR"] else 2`
(src/main.py:858). -/
def byteLength (f : ByteField) : Nat :=
  if f.type == "UCHAR" || f.type == "CHAR" then 1 else 2

/-- The loop of `get_byte_info`: walk the ordered field list with the
running `current_byte_count`, returning the field whose
`range(current_byte_count + 1, current_byte_count + byte_length + 1)`
contains the 1-based `byte_position`. -/
def getByteInfoGo : List ByteField → Nat → Nat → String × String
  | [], _, _ => ("Unknown", "No description available")
  | f :: rest, bytePosition, currentByteCount =>
    if currentByteCount + 1 ≤ bytePosition ∧
        bytePosition < currentByteCount + byteLength f + 1 then
      (f.name, f.descr)
    else
      getByteInfoGo rest bytePosition (currentByteCount + byteLength f)

/-- `get_byte_info(byte_info, byte_index)`: resolve a 0-based byte index
to the owning field's name and description, with the
`("Unknown", "No description available")` fallback (src/main.py:850-870). -/
def get_byte_info (byteInfo : List ByteField) (byteIndex : Nat) : String × String :=
  getByteInfoGo byteInfo (byteIndex + 1) 0

/-- Total declared width of a field list, in bytes. -/
def totalWidth (fields : List ByteField) : Nat :=
  (fields.map byteLength).sum

/- ### Document edit model
(`track_changes` src/main.py:872-934, `undo_hex_data` 1017-1028,
`redo_hex_data` 1030-1041, `move_row_up`/`move_row_down`
src/table_helpers.py, `game_selected` src/main.py:529-560,
`parse_scd_data`'s table reset src/main.py:668-669). -/

/-- One table row: opcode-name cell (column 0), hex-data cell text
(column 1), the `Qt.UserRole` payload attached to the hex cell by
`track_changes`, and the description cell (column 2). -/
structure Row where
  name : String
  text : List Char
  userData : Option (List Char)
  descr : String
deriving DecidableEq, Repr

/-- The mutable state of the main window that the edit model touches:
the table rows, `original_hex_values` (a dict from row index, modelled
as a list indexed by position with `""` default), the undo and redo
stacks of `(row, prev_value)` pairs (the stored column is always 1, so
it is omitted), the active game and registry, and a flag recording
whether the operation showed the "Invalid Input" error dialog.

Qt's `itemChanged` signal is modelled as invoking `track_changes`
exactly where the source invokes it: once per user edit of a hex cell
(via the connection at src/main.py:383) and once explicitly inside
`undo_hex_data`/`redo_hex_data`; programmatic `setText`/`setData` inside
those handlers are modelled as plain state updates. -/
structure DocState where
  rows : List Row
  originals : List (List Char)
  undoStack : List (Nat × List Char)
  redoStack : List (Nat × List Char)
  game : String
  reg : Registry
  errorShown : Bool
deriving DecidableEq, Repr

/-- `self.original_hex_values.get(row, "")` (src/main.py:877). -/
def originalAt (st : DocState) (i : Nat) : List Char :=
  st.originals.getD i []

/-- `.replace(" ", "").upper()` as applied to cell text and original
values in `track_changes` (src/main.py:876-877). -/
def normalizeHex (s : List Char) : List Char :=
  upperStr (stripSpaces s)

/-- `all(c in '0123456789ABCDEF' for c in s)` (src/main.py:883). -/
def isHexStr (s : List Char) : Bool :=
  s.all (fun c => c ∈ hexDigitsU)

/-- The name/description re-derivation of `track_changes`
(src/main.py:898-929): look up the first byte of the new value, take the
first candidate (disambiguation is not reapplied), or the "Unknown"
sentinel with empty description.  The `head? = none` arm models the
`IndexError` Python would raise on an empty candidate list (unreachable
for registries built by `parse_opcodes_as_dict`). -/
def deriveNameDesc (reg : Registry) (hexData : List Char) (row : Row) : Row :=
  if hexData.length ≥ 2 then
    match registryLookup reg (hexData.take 2) with
    | some candidates =>
      match candidates.head? with
      | some ki => { row with name := ki.2.name, descr := ki.2.descr }
      | none => row
    | none => { row with name := "Unknown", descr := "" }
  else row

/-- The `prev_value` computation of `track_changes`
(src/main.py:877-880): the `Qt.UserRole` payload if one was stored,
otherwise `original_hex_values.get(row, "")` stripped and uppercased. -/
def prevOf (st : DocState) (i : Nat) (row : Row) : List Char :=
  match row.userData with
  | some v => v
  | none => normalizeHex (originalAt st i)

/-- The name/description refresh step of `track_changes`
(src/main.py:896-930) applied to the row at index `i` with the captured
`hex_data` value: the `setText` calls it makes target columns 0 and 2,
whose `itemChanged` signals the handler ignores (`item.column() == 1`
guard at src/main.py:874), so no re-entry happens here. -/
def deriveAt (st : DocState) (i : Nat) (hexData : List Char) : DocState :=
  match st.rows.get? i with
  | none => st
  | some row => { st with rows := st.rows.set i (deriveNameDesc st.reg hexData row) }

/-- `track_changes(item)` for an item in the hex column at row `i`
(src/main.py:872-934), including the `itemChanged` re-entrancy of the
connection at src/main.py:383: Qt emits `itemChanged` for any role whose
stored value actually changes (and suppresses the emission when the new
value equals the old one), so the handler's own `item.setText(prev_value)`
(src/main.py:885) and `item.setData(Qt.UserRole, current_value)`
(src/main.py:894) re-invoke `track_changes` when they change the stored
value.  The re-entrancy depth is at most 3 on every state: a re-fire
requires a value change, a re-entered run sees `text` already equal to
the value an invalid branch would revert to, and a re-entered valid run
stores a `Qt.UserRole` value equal to what it would store again — so the
fuel of 4 used by `track_changes` is never exhausted. -/
def track_changes_fuel : Nat → DocState → Nat → DocState
  | 0, st, _ => st
  | fuel + 1, st, i =>
    match st.rows.get? i with
    | none => st
    | some row =>
      let currentValue := normalizeHex row.text
      let prevValue := prevOf st i row
      if !(isHexStr currentValue) then
        -- show_error_message; item.setText(prev_value) re-fires itemChanged
        -- when the text differs from prev_value
        if row.text = prevValue then { st with errorShown := true }
        else
          track_changes_fuel fuel
            { st with errorShown := true,
                      rows := st.rows.set i { row with text := prevValue } } i
      else
        -- undo_stack.append((row, item.column(), prev_value)); redo_stack.clear()
        let st1 := { st with undoStack := (i, prevValue) :: st.undoStack, redoStack := [] }
        -- item.setData(Qt.UserRole, current_value) re-fires itemChanged when the
        -- stored Qt.UserRole value differs from current_value
        let st2 :=
          if row.userData = some currentValue then st1
          else
            track_changes_fuel fuel
              { st1 with rows := st1.rows.set i { row with userData := some currentValue } } i
        deriveAt st2 i currentValue

/-- `track_changes` as invoked through the `itemChanged` connection or an
explicit call: fuel 4 exceeds the maximal re-entrancy depth of 3, so
this computes exactly what the Python handler cascade does. -/
def track_changes (st : DocState) (i : Nat) : DocState :=
  track_changes_fuel 4 st i

/-- A user edit of the hex cell of row `i`: the table item receives the
typed text; `itemChanged` fires — and with it the `track_changes`
connection (src/main.py:383) — precisely when the new text differs from
the current cell text (Qt suppresses no-change emissions). -/
def userEdit (st : DocState) (i : Nat) (txt : List Char) : DocState :=
  match st.rows.get? i with
  | none => st
  | some row =>
    if row.text = txt then st
    else track_changes { st with rows := st.rows.set i { row with text := txt } } i

/-- `undo_hex_data` (src/main.py:1017-1028): pop the undo stack, push
the current cell text onto the redo stack, `setText` the popped value —
which re-fires `itemChanged` and so `track_changes` when the text
actually changes — and finally run the explicit `track_changes` call of
src/main.py:1028. -/
def undo_hex_data (st : DocState) : DocState :=
  match st.undoStack with
  | [] => st
  | (i, prevValue) :: rest =>
    match st.rows.get? i with
    | none => { st with undoStack := rest }
    | some row =>
      let st1 := { st with undoStack := rest,
                           redoStack := (i, row.text) :: st.redoStack }
      let st2 :=
        if row.text = prevValue then st1
        else track_changes { st1 with rows := st1.rows.set i { row with text := prevValue } } i
      track_changes st2 i

/-- `redo_hex_data` (src/main.py:1030-1041): symmetric to
`undo_hex_data`, with the same `setText`-driven `itemChanged` re-entry
before the explicit `track_changes` call. -/
def redo_hex_data (st : DocState) : DocState :=
  match st.redoStack with
  | [] => st
  | (i, prevValue) :: rest =>
    match st.rows.get? i with
    | none => { st with redoStack := rest }
    | some row =>
      let st1 := { st with redoStack := rest,
                           undoStack := (i, row.text) :: st.undoStack }
      let st2 :=
        if row.text = prevValue then st1
        else track_changes { st1 with rows := st1.rows.set i { row with text := prevValue } } i
      track_changes st2 i

/-- Swap rows `i` and `i+1` of a list. -/
def swapAdjacent (rows : List Row) (i : Nat) : List Row :=
  match rows.get? i, rows.get? (i + 1) with
  | some a, some b => (rows.set i b).set (i + 1) a
  | _, _ => rows

/-- `move_row_up` (src/table_helpers.py:3-28) with row `i` selected:
swap the whole row (items carry text and user data) with the row above;
signals are blocked, so `track_changes` does not run, and
`original_hex_values` is not touched. -/
def move_row_up (st : DocState) (i : Nat) : DocState :=
  if i = 0 then st
  else { st with rows := swapAdjacent st.rows (i - 1) }

/-- `move_row_down` (src/table_helpers.py:31-56) with row `i` selected. -/
def move_row_down (st : DocState) (i : Nat) : DocState :=
  if i + 1 = st.rows.length then st
  else { st with rows := swapAdjacent st.rows i }

/-- Rows created by `parse_scd_data` from decoded records: no
`Qt.UserRole` payload yet, and `original_hex_values[row]` set to the
grouped hex (src/main.py:753-772). -/
def rowOfRecord (r : Record) : Row :=
  ⟨r.name, r.text, none, r.descr⟩

/-- Loading an SCD file (`load_scd_file` + `parse_scd_data`,
src/main.py:628-790): the buffer is rendered as uppercase hex, the table
and `original_hex_values` are cleared and repopulated from the decode —
and nothing clears `undo_stack` or `redo_stack`. -/
def load_scd_buffer (st : DocState) (buf : List Nat) : DocState :=
  let result := parse_scd_data st.game st.reg (bytesToHex buf)
  { st with rows := result.records.map rowOfRecord,
            originals := result.records.map Record.text,
            errorShown := false }

/-- `game_selected` choosing a new game (src/main.py:529-560): the table
and `original_hex_values` are cleared and the registry replaced — and
nothing clears `undo_stack` or `redo_stack`. -/
def game_selected (st : DocState) (g : String) (newReg : Registry) : DocState :=
  { st with rows := [], originals := [], game := g, reg := newReg, errorShown := false }

/-- The operations of the edit model that the claims quantify over. -/
inductive EditOp where
  | edit (i : Nat) (txt : List Char)
  | undo
  | redo
  | moveUp (i : Nat)
  | moveDown (i : Nat)
  | load (buf : List Nat)
  | selectGame (g : String) (reg : Registry)
deriving Repr

/-- Apply one operation.  Every operation first clears the error-dialog
flag, so `errorShown` reports whether this operation showed the
"Invalid Input" dialog. -/
def applyOp (st : DocState) : EditOp → DocState
  | .edit i txt => userEdit { st with errorShown := false } i txt
  | .undo => undo_hex_data { st with errorShown := false }
  | .redo => redo_hex_data { st with errorShown := false }
  | .moveUp i => move_row_up { st with errorShown := false } i
  | .moveDown i => move_row_down { st with errorShown := false } i
  | .load buf => load_scd_buffer st buf
  | .selectGame g reg => game_selected st g reg

/-- Run a sequence of operations. -/
def runOps (st : DocState) (ops : List EditOp) : DocState :=
  ops.foldl applyOp st

/-- The freshly started application (src/main.py:243-248): empty table,
empty stacks. -/
def initState (game : String) (reg : Registry) : DocState :=
  ⟨[], [], [], [], game, reg, false⟩

/-- The concatenation `save_scd_file` builds before `bytes.fromhex`:
every row's hex cell in document order with spaces removed
(src/main.py:1283-1287). -/
def concatStripped (st : DocState) : List Char :=
  ((st.rows.map Row.text).map stripSpaces).flatten

/- ### Concrete instances used to witness and refute the claims -/

/-- A registry with a single opcode `01` of declared length 2 bytes. -/
def regTwo : Registry := [(['0', '1'], [("k1", ⟨"Op01", some 2, "d1", []⟩)])]

/-- A registry with a single opcode `01` of declared length 1 byte. -/
def regOne : Registry := [(['0', '1'], [("k1", ⟨"Op01", some 1, "d1", []⟩)])]

/-- A Resident Evil 1.5 style registry with base and `_4p` variants of
opcode `2C`, both of declared length 6 bytes. -/
def regVar6 : Registry :=
  [(['2', 'C'],
    [("ka", ⟨"Base_Op", some 6, "base", []⟩), ("kb", ⟨"Base_Op_4p", some 6, "fourp", []⟩)])]

/-- A Resident Evil 1.5 style registry with base and `_4p` variants of
opcode `2C`, both of declared length 4 bytes. -/
def regVar4 : Registry :=
  [(['2', 'C'],
    [("ka", ⟨"Base_Op", some 4, "base", []⟩), ("kb", ⟨"Base_Op_4p", some 4, "fourp", []⟩)])]

/-- Buffer whose third payload byte is `0x10` and fourth payload byte is
`0x32`: the code's selector (record byte 3) and the claimed selector
(payload offset 3 = record byte 4) disagree on which side of `0x31` they
fall. -/
def bufSel : List Nat := [0x2C, 0x00, 0x00, 0x10, 0x32, 0x00]

/-- A four-byte buffer: the opcode byte plus exactly 3 payload bytes. -/
def bufShort : List Nat := [0x2C, 0x00, 0x00, 0x10]

/-- A two-field layout: one 1-byte `UCHAR` field then one 2-byte field. -/
def fieldsTwo : List ByteField := [⟨"Byte2", "UCHAR", "da"⟩, ⟨"Bytes3-4", "UWORD", "db"⟩]

/-- A registry with two one-byte opcodes `01` (`Op01`) and `02`
(`Op02`). -/
def regAB : Registry :=
  [(['0', '1'], [("k1", ⟨"Op01", some 1, "d1", []⟩)]),
   (['0', '2'], [("k2", ⟨"Op02", some 1, "d2", []⟩)])]

/-- The application after loading the one-byte buffer `01`. -/
def loadedState : DocState :=
  runOps (initState "Resident Evil 2" regOne) [.load [0x01]]

/-- `loadedState` after the accepted edit `02` on row 0. -/
def editedState : DocState :=
  applyOp loadedState (.edit 0 ['0', '2'])

/- ### Predicates about edit-model states -/

/-- The normalized current hex value of every row, in document order:
what each row contributes to the saved buffer. -/
def currentHexes (st : DocState) : List (List Char) :=
  st.rows.map (fun r => normalizeHex r.text)

/-- Row `i` is well formed when the value `track_changes` would revert
to equals, after normalization, the row's current normalized text — the
coupling the edit model maintains between the cell, its `Qt.UserRole`
payload and the stored original. -/
def wfRowAt (st : DocState) (i : Nat) : Bool :=
  match st.rows.get? i with
  | none => true
  | some row => normalizeHex (prevOf st i row) == normalizeHex row.text

/-- Every row of the state is well formed. -/
def wfState (st : DocState) : Prop :=
  ∀ i < st.rows.length, wfRowAt st i = true

/-- All characters are hex digits once spaces are removed and case is
folded. -/
def goodStr (s : List Char) : Bool :=
  (stripSpaces s).all (fun c => c.toUpper ∈ hexDigitsU)

/-- The space-stripped length is even. -/
def evenStr (s : List Char) : Bool :=
  (stripSpaces s).length % 2 == 0

/-- A string that is hex-clean and of even stripped length. -/
def cleanStr (v : List Char) : Prop :=
  goodStr v = true ∧ evenStr v = true

/-- A row whose cell text and `Qt.UserRole` payload are clean. -/
def cleanRow (r : Row) : Prop :=
  cleanStr r.text ∧ ∀ v, r.userData = some v → cleanStr v

/-- Every hex-bearing component of the state is hex-clean and of even
stripped length. -/
def cleanState (st : DocState) : Prop :=
  (∀ r ∈ st.rows, cleanRow r) ∧
  (∀ o ∈ st.originals, cleanStr o) ∧
  (∀ e ∈ st.undoStack, cleanStr e.2) ∧
  (∀ e ∈ st.redoStack, cleanStr e.2)

/-- The operation, if it is an edit, types text of even normalized
length (the program never checks this; it is the hypothesis the amended
evenness claim needs). -/
def evenEditOp : EditOp → Prop
  | .edit _ txt => (normalizeHex txt).length % 2 = 0
  | _ => True

/- ### Lemmas on the field resolver -/

theorem getByteInfoGo_unknown (fields : List ByteField) :
    ∀ bytePos cur, cur + totalWidth fields < bytePos →
      getByteInfoGo fields bytePos cur = ("Unknown", "No description available") := by
  induction fields with
  | nil => intro bytePos cur _; rfl
  | cons f rest ih =>
    intro bytePos cur h
    have htw : totalWidth (f :: rest) = byteLength f + totalWidth rest := by
      simp [totalWidth]
    rw [htw] at h
    unfold getByteInfoGo
    rw [if_neg (by omega)]
    exact ih bytePos (cur + byteLength f) (by omega)

theorem getByteInfoGo_found (fields : List ByteField) :
    ∀ bytePos cur, cur < bytePos → bytePos ≤ cur + totalWidth fields →
      ∃ pre f post, fields = pre ++ f :: post ∧
        cur + totalWidth pre < bytePos ∧
        bytePos ≤ cur + totalWidth pre + byteLength f ∧
        getByteInfoGo fields bytePos cur = (f.name, f.descr) := by
  induction fields with
  | nil =>
    intro bytePos cur h1 h2
    simp [totalWidth] at h2
    omega
  | cons f rest ih =>
    intro bytePos cur h1 h2
    have htw : totalWidth (f :: rest) = byteLength f + totalWidth rest := by
      simp [totalWidth]
    by_cases hc : bytePos < cur + byteLength f + 1
    · refine ⟨[], f, rest, rfl, ?_, ?_, ?_⟩
      · simpa [totalWidth]
      · simp only [totalWidth, List.map_nil, List.sum_nil]
        omega
      · unfold getByteInfoGo
        rw [if_pos ⟨by omega, hc⟩]
    · rw [htw] at h2
      obtain ⟨pre, f', post, heq, hlo, hhi, hres⟩ :=
        ih bytePos (cur + byteLength f) (by omega) (by omega)
      refine ⟨f :: pre, f', post, by rw [heq]; simp, ?_, ?_, ?_⟩
      · have : totalWidth (f :: pre) = byteLength f + totalWidth pre := by
          simp [totalWidth]
        omega
      · have : totalWidth (f :: pre) = byteLength f + totalWidth pre := by
          simp [totalWidth]
        omega
      · unfold getByteInfoGo
        rw [if_neg (by omega)]
        exact hres

/- ### Lemmas on the decode loop -/

theorem parseLoop_unknown_pos_ge (game : String) (reg : Registry) (hexData : List Char) :
    ∀ fuel pos q, q ∈ (parseLoop game reg hexData fuel pos).unknowns → pos ≤ q.2 := by
  intro fuel
  induction fuel with
  | zero => intro pos q hq; simp [parseLoop] at hq
  | succ n ih =>
    intro pos q hq
    simp only [parseLoop] at hq
    by_cases hlt : pos < hexData.length
    · rw [if_pos hlt] at hq
      rcases hreg : registryLookup reg (pySlice hexData pos (pos + 2)) with _ | cands
      · simp only [hreg, List.mem_cons] at hq
        rcases hq with rfl | hq
        · exact Nat.le_refl pos
        · exact Nat.le_trans (by omega) (ih (pos + 2) q hq)
      · simp only [hreg] at hq
        rcases hsel : selectStep game hexData pos (pySlice hexData pos (pos + 2)) cands with e | info
        · simp only [hsel] at hq
          simp at hq
        · simp only [hsel] at hq
          rcases hlen : info.lengthBytes? with _ | opcodeLength
          · simp only [hlen] at hq
            simp at hq
          · simp only [hlen] at hq
            by_cases hb : pos + opcodeLength * 2 > hexData.length
            · rw [if_pos hb] at hq
              simp at hq
            · rw [if_neg hb] at hq
              exact Nat.le_trans (Nat.le_add_right pos (opcodeLength * 2))
                (ih (pos + opcodeLength * 2) q hq)
    · rw [if_neg hlt] at hq
      simp at hq

theorem stripSpaces_group2 : ∀ s : List Char, (∀ c ∈ s, c ≠ ' ') → stripSpaces (group2 s) = s
  | [], _ => rfl
  | [a], h => by
    have ha : (a != ' ') = true := bne_iff_ne.mpr (h a (by simp))
    simp [group2, stripSpaces, List.filter, ha]
  | [a, b], h => by
    have ha : (a != ' ') = true := bne_iff_ne.mpr (h a (by simp))
    have hb : (b != ' ') = true := bne_iff_ne.mpr (h b (by simp))
    simp [group2, stripSpaces, List.filter, ha, hb]
  | a :: b :: c :: t, h => by
    have ha : (a != ' ') = true := bne_iff_ne.mpr (h a (by simp))
    have hb : (b != ' ') = true := bne_iff_ne.mpr (h b (by simp))
    have ih := stripSpaces_group2 (c :: t) (fun x hx => h x (by simp [hx]))
    simp only [group2, stripSpaces, List.filter] at ih ⊢
    simp [ha, hb, ih]

theorem upperStr_fix {s : List Char} (h : ∀ c ∈ s, c ∈ hexDigitsU) : upperStr s = s := by
  unfold upperStr
  rw [List.map_congr_left (fun c hc => hexU_toUpper_fix c (h c hc))]
  exact List.map_id s

theorem parseLoop_concat (game : String) (reg : Registry) {hexData : List Char}
    (hhex : ∀ c ∈ hexData, c ∈ hexDigitsU) :
    ∀ fuel pos, (parseLoop game reg hexData fuel pos).error = none →
      (parseLoop game reg hexData fuel pos).unknowns = [] →
      (((parseLoop game reg hexData fuel pos).records.map Record.text).map stripSpaces).flatten
        = hexData.drop pos := by
  intro fuel
  induction fuel with
  | zero =>
    intro pos herr _
    simp [parseLoop] at herr
  | succ n ih =>
    intro pos herr hunk
    simp only [parseLoop] at herr hunk ⊢
    by_cases hlt : pos < hexData.length
    · rw [if_pos hlt] at herr hunk ⊢
      rcases hreg : registryLookup reg (pySlice hexData pos (pos + 2)) with _ | cands
      · simp only [hreg] at hunk
        cases hunk
      · simp only [hreg] at herr hunk ⊢
        rcases hsel : selectStep game hexData pos (pySlice hexData pos (pos + 2)) cands
          with e | info
        · simp only [hsel] at herr
          cases herr
        · simp only [hsel] at herr hunk ⊢
          rcases hlen : info.lengthBytes? with _ | opcodeLength
          · simp only [hlen] at herr
            cases herr
          · simp only [hlen] at herr hunk ⊢
            by_cases hb : pos + opcodeLength * 2 > hexData.length
            · rw [if_pos hb] at herr
              cases herr
            · rw [if_neg hb] at herr hunk ⊢
              have hslice : pySlice hexData pos (pos + opcodeLength * 2)
                  = (hexData.drop pos).take (opcodeLength * 2) := by
                simp [pySlice]
              have hmem : ∀ c ∈ pySlice hexData pos (pos + opcodeLength * 2), c ∈ hexDigitsU := by
                intro c hc
                rw [hslice] at hc
                exact hhex c (List.mem_of_mem_drop (List.mem_of_mem_take hc))
              have hup : upperStr (pySlice hexData pos (pos + opcodeLength * 2))
                  = pySlice hexData pos (pos + opcodeLength * 2) := upperStr_fix hmem
              have hstrip : stripSpaces (group2 (upperStr
                    (pySlice hexData pos (pos + opcodeLength * 2))))
                  = pySlice hexData pos (pos + opcodeLength * 2) := by
                rw [hup]
                exact stripSpaces_group2 _ (fun c hc => hexU_ne_space c (hmem c hc))
              simp only [List.map_cons, List.flatten_cons, hstrip]
              rw [ih (pos + opcodeLength * 2) herr hunk]
              rw [hslice]
              have hdd : hexData.drop (pos + opcodeLength * 2)
                  = (hexData.drop pos).drop (opcodeLength * 2) := by
                rw [List.drop_drop, Nat.add_comm]
              rw [hdd, List.take_append_drop]
    · rw [if_neg hlt] at herr hunk ⊢
      simp only [List.map_nil, List.flatten_nil]
      exact (List.drop_eq_nil_of_le (by omega)).symm

theorem bytesFromHex_bytesToHex : ∀ buf : List Nat, (∀ b ∈ buf, b < 256) →
    bytesFromHex (bytesToHex buf) = some buf := by
  intro buf
  induction buf with
  | nil => intro _; rfl
  | cons b t ih =>
    intro hb
    have hblt : b < 256 := hb b (by simp)
    have hdiv : b / 16 < 16 := by omega
    have hmod : b % 16 < 16 := Nat.mod_lt _ (by omega)
    have hrest := ih (fun x hx => hb x (by simp [hx]))
    simp only [bytesToHex, bytesFromHex,
      hexVal_hexDigitChar (b / 16) hdiv, hexVal_hexDigitChar (b % 16) hmod, hrest]
    rw [show b / 16 * 16 + b % 16 = b from by omega]

theorem selectStep_satTruncated {game : String} {hexData : List Char} {position : Nat}
    {opcodeHex : List Char} {candidates : List (String × OpcodeInfo)}
    (hg : game = "Resident Evil 1.5") (hs : upperStr opcodeHex ∈ re15Specials)
    (hb : position + 8 > hexData.length) :
    selectStep game hexData position opcodeHex candidates =
      .error (.satTruncated opcodeHex position) := by
  subst hg
  unfold selectStep
  rw [if_pos (by simp [hs]), if_pos hb]

/-- C2 (amended): for Resident Evil 1.5 and an opcode number among
2C/3B/50 with candidate definitions, when at least 8 hex characters
(opcode byte plus 3 payload bytes) are available, the decoder's
selection step reads the selector byte at record offset 3 — the THIRD
payload byte after the opcode-number byte, hex characters
`position+6 .. position+8` — and selects a candidate whose name ends in
`_4p` exactly when the selector value strictly exceeds 0x31 (0x31 itself
selects the base variant); if no candidate on the required side exists,
selection fails for that record. -/
theorem C2_selector_byte_amended {game : String} {hexData : List Char}
    {position : Nat} {opcodeHex : List Char} {candidates : List (String × OpcodeInfo)}
    {satValue : Nat}
    (hg : game = "Resident Evil 1.5") (hs : upperStr opcodeHex ∈ re15Specials)
    (hb : position + 8 ≤ hexData.length)
    (hsat : intHex? (pySlice hexData (position + 6) (position + 8)) = some satValue) :
    (∀ info, selectStep game hexData position opcodeHex candidates = .ok info →
        info ∈ candidates.map Prod.snd ∧
        endsWith4p info.name = decide (0x31 < satValue)) ∧
    (selectStep game hexData position opcodeHex candidates =
        .error (.selectFailed opcodeHex position) ↔
      ∀ ki ∈ candidates, ¬ (endsWith4p ki.2.name = decide (0x31 < satValue))) := by
  subst hg
  unfold selectStep
  rw [if_pos (by simp [hs]), if_neg (by omega)]
  simp only [hsat]
  by_cases hgt : satValue > 0x31
  · rw [if_pos hgt]
    have hdec : decide (0x31 < satValue) = true := by simpa using hgt
    rw [hdec]
    rcases hf : candidates.find? (fun ki => endsWith4p ki.2.name) with _ | ki
    · simp only [hf]
      constructor
      · intro info hinfo; cases hinfo
      · simp only [true_iff]
        intro kj hkj hend
        exact absurd hend (by simpa using List.find?_eq_none.mp hf kj hkj)
    · simp only [hf]
      have hpred : endsWith4p ki.2.name = true := by simpa using List.find?_some hf
      have hmem := List.mem_of_find?_eq_some hf
      constructor
      · intro info hinfo
        cases hinfo
        exact ⟨List.mem_map_of_mem Prod.snd hmem, hpred⟩
      · constructor
        · intro h; cases h
        · intro hall
          exact absurd hpred (hall ki hmem)
  · rw [if_neg hgt]
    have hdec : decide (0x31 < satValue) = false := by simpa using hgt
    rw [hdec]
    rcases hf : candidates.find? (fun ki => !(endsWith4p ki.2.name)) with _ | ki
    · simp only [hf]
      constructor
      · intro info hinfo; cases hinfo
      · simp only [true_iff]
        intro kj hkj hend
        have := List.find?_eq_none.mp hf kj hkj
        simp only [Bool.not_eq_true', Bool.not_eq_false] at this
        exact absurd this (by simp [hend])
    · simp only [hf]
      have hpred : endsWith4p ki.2.name = false := by
        simpa [Bool.not_eq_true'] using List.find?_some hf
      have hmem := List.mem_of_find?_eq_some hf
      constructor
      · intro info hinfo
        cases hinfo
        exact ⟨List.mem_map_of_mem Prod.snd hmem, hpred⟩
      · constructor
        · intro h; cases h
        · intro hall
          exact absurd hpred (hall ki hmem)

/-- C1: for every byte buffer whose decode runs to completion with no
unknown opcodes and no truncation, encoding the resulting rows —
concatenating every row's hex cell in document order, removing the
space separators, and unhexing — returns exactly the original buffer. -/
theorem C1_roundtrip (game : String) (reg : Registry) (buf : List Nat)
    (hbuf : ∀ b ∈ buf, b < 256)
    (herr : (parse_scd_data game reg (bytesToHex buf)).error = none)
    (hunk : (parse_scd_data game reg (bytesToHex buf)).unknowns = []) :
    save_scd_file ((parse_scd_data game reg (bytesToHex buf)).records.map Record.text)
      = some buf := by
  unfold save_scd_file
  unfold parse_scd_data at herr hunk ⊢
  rw [parseLoop_concat game reg (fun c hc => mem_bytesToHex hc) _ 0 herr hunk]
  simp only [List.drop_zero]
  exact bytesFromHex_bytesToHex buf hbuf

/-- C1 (witness): the buffer `01 05 01 07` decodes to two records with
no unknowns and no error, and saving them returns the buffer
byte-for-byte. -/
theorem C1_roundtrip_witness :
    save_scd_file ((parse_scd_data "Resident Evil 2" regTwo
        (bytesToHex [0x01, 0x05, 0x01, 0x07])).records.map Record.text)
      = some [0x01, 0x05, 0x01, 0x07] := by
  exact C1_roundtrip "Resident Evil 2" regTwo [0x01, 0x05, 0x01, 0x07]
    (by decide) (by decide) (by decide)

/-- C2 (counterexample): decoding the buffer
`2C 00 00 10 32 00` for Resident Evil 1.5 against a registry holding a
base and a `_4p` variant of opcode 2C selects the BASE variant even
though the byte at payload offset 3 (the 4th payload byte after the
opcode-number byte, value 0x32 > 0x31) would demand the `_4p` variant
under the claim: the code's selector is the 3rd payload byte (0x10). -/
theorem C2_counterexample :
    (parse_scd_data "Resident Evil 1.5" regVar6 (bytesToHex bufSel)).records.map Record.name
        = ["Base_Op"] ∧
    endsWith4p "Base_Op" = false ∧
    intHex? (pySlice (bytesToHex bufSel) 8 10) = some 0x32 ∧
    registryLookup regVar6 (['2', 'C']) =
      some [("ka", ⟨"Base_Op", some 6, "base", []⟩),
            ("kb", ⟨"Base_Op_4p", some 6, "fourp", []⟩)] := by
  refine ⟨?_, ?_, ?_, ?_⟩ <;> decide

/-- C2 (witness for the amended theorem): with selector byte 0x10 at
record offset 3, the step selects the base variant `Base_Op`, which is a
candidate and does not carry the `_4p` suffix. -/
theorem C2_selector_byte_amended_witness :
    (⟨"Base_Op", some 6, "base", []⟩ : OpcodeInfo) ∈
      ([("ka", (⟨"Base_Op", some 6, "base", []⟩ : OpcodeInfo)),
        ("kb", (⟨"Base_Op_4p", some 6, "fourp", []⟩ : OpcodeInfo))]).map Prod.snd ∧
    endsWith4p "Base_Op" = decide (0x31 < 0x10) := by
  exact (@C2_selector_byte_amended "Resident Evil 1.5" (bytesToHex bufSel) 0 (['2', 'C'])
    [("ka", ⟨"Base_Op", some 6, "base", []⟩), ("kb", ⟨"Base_Op_4p", some 6, "fourp", []⟩)]
    0x10 rfl (by decide) (by decide) rfl).1 _ rfl

/-- C4 (counterexample): on the four-byte buffer `2C 00 00 10` (opcode
byte plus only THREE payload bytes, fewer than the four the claim
requires) the Resident Evil 1.5 decode does not stop and reports no
truncation error: it emits a complete record and finishes normally. -/
theorem C4_counterexample :
    (parse_scd_data "Resident Evil 1.5" regVar4 (bytesToHex bufShort)).error = none ∧
    (parse_scd_data "Resident Evil 1.5" regVar4 (bytesToHex bufShort)).records.map Record.name
        = ["Base_Op"] ∧
    (bytesToHex bufShort).length = 8 := by
  refine ⟨?_, ?_, ?_⟩ <;> decide

/-- C4 (amended): whenever disambiguation applies (game Resident
Evil 1.5, opcode number 2C, 3B or 50 with candidate definitions), the
decoder requires at least THREE payload bytes beyond the opcode-number
byte (eight hex characters including the opcode byte) to be available;
if fewer are available the whole decode stops immediately — the step
returns no records, no further unknown ranges, and the SAT-truncation
error. -/
theorem C4_sat_truncation_amended {game : String} {reg : Registry} {hexData : List Char}
    {fuel position : Nat} {candidates : List (String × OpcodeInfo)}
    (hlt : position < hexData.length)
    (hreg : registryLookup reg (pySlice hexData position (position + 2)) = some candidates)
    (hg : game = "Resident Evil 1.5")
    (hs : upperStr (pySlice hexData position (position + 2)) ∈ re15Specials)
    (hb : position + 8 > hexData.length) :
    parseLoop game reg hexData (fuel + 1) position =
      ⟨[], [], some (.satTruncated (pySlice hexData position (position + 2)) position)⟩ := by
  simp only [parseLoop]
  rw [if_pos hlt]
  simp only [hreg, selectStep_satTruncated hg hs hb]

/-- C4 (witness for the amended theorem): a three-byte buffer starting
with opcode 2C makes the Resident Evil 1.5 decode stop at once with the
SAT-truncation error. -/
theorem C4_sat_truncation_amended_witness :
    parseLoop "Resident Evil 1.5" regVar4 (bytesToHex [0x2C, 0x00, 0x00]) 6 0 =
      ⟨[], [], some (.satTruncated (pySlice (bytesToHex [0x2C, 0x00, 0x00]) 0 2) 0)⟩ := by
  exact C4_sat_truncation_amended (by decide) rfl rfl (by decide) (by decide)

/-- C5: whenever a definition has been selected at a position but the
remaining buffer is shorter than the definition's declared record length
(in hex characters, twice the byte length), the decode loop stops
entirely at that step: it emits no record for the partial data, examines
no later bytes (no further unknown ranges), and reports the
record-truncation error; the enclosing loop structure prepends the
records and unknown ranges accumulated before this position. -/
theorem C5_record_truncation_stops {game : String} {reg : Registry} {hexData : List Char}
    {fuel position : Nat} {candidates : List (String × OpcodeInfo)} {info : OpcodeInfo}
    {opcodeLength : Nat}
    (hlt : position < hexData.length)
    (hreg : registryLookup reg (pySlice hexData position (position + 2)) = some candidates)
    (hsel : selectStep game hexData position (pySlice hexData position (position + 2))
        candidates = .ok info)
    (hlen : info.lengthBytes? = some opcodeLength)
    (hb : position + opcodeLength * 2 > hexData.length) :
    parseLoop game reg hexData (fuel + 1) position =
      ⟨[], [], some (.recordTruncated (pySlice hexData position (position + 2)) position)⟩ := by
  simp only [parseLoop]
  rw [if_pos hlt]
  simp only [hreg, hsel, hlen]
  rw [if_pos hb]

/-- C5 (witness): opcode 01 declared 2 bytes long against the one-byte
buffer `01` stops the decode with the record-truncation error. -/
theorem C5_record_truncation_stops_witness :
    parseLoop "Resident Evil 2" regTwo (bytesToHex [0x01]) 3 0 =
      ⟨[], [], some (.recordTruncated (pySlice (bytesToHex [0x01]) 0 2) 0)⟩ := by
  exact C5_record_truncation_stops (by decide) rfl rfl rfl (by decide)

/-- C6: at a position whose opcode byte has no candidate definitions,
the decode loop appends `(opcode_hex, position)` exactly once to the
unknown list, advances by exactly one byte (two hex characters), and
otherwise continues unchanged: the records and the final error are those
of the continuation — an unknown byte never aborts the decode. -/
theorem C6_unknown_opcode_skips {game : String} {reg : Registry} {hexData : List Char}
    {fuel position : Nat}
    (hlt : position < hexData.length)
    (hreg : registryLookup reg (pySlice hexData position (position + 2)) = none) :
    (parseLoop game reg hexData (fuel + 1) position).records =
        (parseLoop game reg hexData fuel (position + 2)).records ∧
    (parseLoop game reg hexData (fuel + 1) position).error =
        (parseLoop game reg hexData fuel (position + 2)).error ∧
    (parseLoop game reg hexData (fuel + 1) position).unknowns =
        (pySlice hexData position (position + 2), position) ::
          (parseLoop game reg hexData fuel (position + 2)).unknowns ∧
    (parseLoop game reg hexData (fuel + 1) position).unknowns.count
        (pySlice hexData position (position + 2), position) = 1 := by
  have hstep : parseLoop game reg hexData (fuel + 1) position =
      ⟨(parseLoop game reg hexData fuel (position + 2)).records,
       (pySlice hexData position (position + 2), position) ::
         (parseLoop game reg hexData fuel (position + 2)).unknowns,
       (parseLoop game reg hexData fuel (position + 2)).error⟩ := by
    simp only [parseLoop]
    rw [if_pos hlt]
    simp only [hreg]
  refine ⟨by rw [hstep], by rw [hstep], by rw [hstep], ?_⟩
  rw [hstep]
  have hnot : (pySlice hexData position (position + 2), position) ∉
      (parseLoop game reg hexData fuel (position + 2)).unknowns := by
    intro hmem
    have := parseLoop_unknown_pos_ge game reg hexData fuel (position + 2) _ hmem
    omega
  simp only [List.count_cons, beq_self_eq_true, if_true, List.count_eq_zero.mpr hnot]

/-- C6 (witness): an unknown opcode FF before a known opcode 01 is
recorded once at its offset and decoding continues one byte later. -/
theorem C6_unknown_opcode_skips_witness :
    0 < (bytesToHex [0xFF, 0x01]).length ∧
    (parseLoop "Resident Evil 2" regOne (bytesToHex [0xFF, 0x01]) 5 0).unknowns =
        (pySlice (bytesToHex [0xFF, 0x01]) 0 2, 0) ::
          (parseLoop "Resident Evil 2" regOne (bytesToHex [0xFF, 0x01]) 4 2).unknowns ∧
    (parseLoop "Resident Evil 2" regOne (bytesToHex [0xFF, 0x01]) 5 0).unknowns.count
        (pySlice (bytesToHex [0xFF, 0x01]) 0 2, 0) = 1 := by
  have h := @C6_unknown_opcode_skips "Resident Evil 2" regOne
    (bytesToHex [0xFF, 0x01]) 4 0 (by decide) rfl
  exact ⟨by decide, h.2.2.1, h.2.2.2⟩

/-- C9 (counterexample): after loading a file and making one edit, the
undo stack holds two entries (the accepted edit pushes twice: once from
the text-change signal and once from the `setData(Qt.UserRole, ...)`
re-entry of `track_changes`); loading another file (a document
replacement) leaves both in place — the stacks are NOT reset to empty. -/
theorem C9_counterexample :
    (applyOp (runOps (initState "Resident Evil 2" regOne)
        [.load [0x01], .edit 0 ['0', '2']]) (.load [0x01])).undoStack
      = [(0, ['0', '2']), (0, ['0', '1'])] ∧
    (applyOp (runOps (initState "Resident Evil 2" regOne)
        [.load [0x01], .edit 0 ['0', '2']]) (.load [0x01])).undoStack ≠ [] := by
  refine ⟨?_, ?_⟩ <;> decide

/-- C9 (amended): the undo and redo stacks are created empty at
application start, but a document replacement — loading a new file or
selecting a new game — does not reset them: both operations preserve
both stacks unchanged (while clearing/replacing the rows and original
values). -/
theorem C9_stacks_amended (st : DocState) (buf : List Nat) (g : String) (newReg : Registry) :
    ((applyOp st (.load buf)).undoStack = st.undoStack ∧
     (applyOp st (.load buf)).redoStack = st.redoStack) ∧
    ((applyOp st (.selectGame g newReg)).undoStack = st.undoStack ∧
     (applyOp st (.selectGame g newReg)).redoStack = st.redoStack ∧
     (applyOp st (.selectGame g newReg)).rows = []) ∧
    (initState g newReg).undoStack = [] ∧ (initState g newReg).redoStack = [] :=
  ⟨⟨rfl, rfl⟩, ⟨rfl, rfl, rfl⟩, rfl, rfl⟩

/-- C10: for every opcode definition and payload byte index, the field
resolver walks the ordered field list accumulating consumed widths
(width 1 for `UCHAR`/`CHAR`, width 2 for every other tag, as fixed by
`byteLength`) and returns the name and description of the field whose
`[consumed, consumed + width)` range contains the index; an index at or
beyond the total declared width returns the
`("Unknown", "No description available")` sentinel instead of failing. -/
theorem C10_field_resolver (fields : List ByteField) (idx : Nat) :
    (idx < totalWidth fields →
      ∃ pre f post, fields = pre ++ f :: post ∧
        totalWidth pre ≤ idx ∧ idx < totalWidth pre + byteLength f ∧
        get_byte_info fields idx = (f.name, f.descr)) ∧
    (totalWidth fields ≤ idx →
      get_byte_info fields idx = ("Unknown", "No description available")) := by
  constructor
  · intro hidx
    obtain ⟨pre, f, post, heq, hlo, hhi, hres⟩ :=
      getByteInfoGo_found fields (idx + 1) 0 (by omega) (by omega)
    exact ⟨pre, f, post, heq, by omega, by omega, hres⟩
  · intro hidx
    exact getByteInfoGo_unknown fields (idx + 1) 0 (by omega)

/-- C10 (witness): in a layout of a 1-byte `UCHAR` field then a 2-byte
field, index 1 resolves to the second field, and index 5 (beyond the
total width 3) resolves to the Unknown sentinel. -/
theorem C10_field_resolver_witness :
    (∃ pre f post, fieldsTwo = pre ++ f :: post ∧
        totalWidth pre ≤ 1 ∧ 1 < totalWidth pre + byteLength f ∧
        get_byte_info fieldsTwo 1 = (f.name, f.descr)) ∧
    get_byte_info fieldsTwo 5 = ("Unknown", "No description available") :=
  ⟨(C10_field_resolver fieldsTwo 1).1 (by decide),
   (C10_field_resolver fieldsTwo 5).2 (by decide)⟩

theorem set_get?_self {α : Type} {l : List α} {i : Nat} {a : α}
    (h : l.get? i = some a) : l.set i a = l := by
  have hlen : i < l.length := by
    by_contra hc
    rw [List.get?_eq_none.mpr (by omega)] at h
    cases h
  apply List.ext_getElem?
  intro n
  by_cases hn : n = i
  · subst hn
    rw [List.getElem?_set_self hlen]
    rw [← List.get?_eq_getElem?]
    exact h.symm
  · exact List.getElem?_set_ne (fun he => hn he.symm)

theorem stripSpaces_normalizeHex (s : List Char) :
    stripSpaces (normalizeHex s) = normalizeHex s := by
  unfold normalizeHex upperStr stripSpaces
  rw [List.filter_map]
  congr 1
  apply List.filter_eq_self.mpr
  intro c hc
  have hcs : c ≠ ' ' := by simpa using List.of_mem_filter hc
  simpa using toUpper_ne_space hcs

theorem isHexStr_normalize_eq_goodStr (s : List Char) :
    isHexStr (normalizeHex s) = goodStr s := by
  unfold isHexStr normalizeHex goodStr upperStr
  rw [List.all_map]
  rfl

theorem goodStr_normalizeHex {s : List Char} (h : goodStr s = true) :
    goodStr (normalizeHex s) = true := by
  unfold goodStr at *
  rw [stripSpaces_normalizeHex]
  unfold normalizeHex upperStr
  rw [List.all_map]
  rw [List.all_eq_true] at h ⊢
  intro c hc
  have := h c hc
  simpa [toUpper_toUpper] using this

theorem evenStr_normalizeHex (s : List Char) : evenStr (normalizeHex s) = evenStr s := by
  unfold evenStr
  rw [stripSpaces_normalizeHex]
  unfold normalizeHex upperStr
  rw [List.length_map]

theorem cleanStr_normalizeHex {s : List Char} (h : cleanStr s) :
    cleanStr (normalizeHex s) :=
  ⟨goodStr_normalizeHex h.1, by rw [evenStr_normalizeHex]; exact h.2⟩

theorem cleanStr_nil : cleanStr [] := by
  refine ⟨?_, ?_⟩ <;> decide

theorem prevOf_clean {st : DocState} {i : Nat} {row : Row}
    (ho : ∀ o ∈ st.originals, cleanStr o)
    (hu : ∀ v, row.userData = some v → cleanStr v) :
    cleanStr (prevOf st i row) := by
  unfold prevOf
  rcases hud : row.userData with _ | v
  · apply cleanStr_normalizeHex
    unfold originalAt List.getD
    rcases hg : st.originals.get? i with _ | o
    · simpa [hg] using cleanStr_nil
    · simpa [hg] using ho o (List.get?_mem hg)
  · exact hu v hud

theorem deriveNameDesc_fields (reg : Registry) (h : List Char) (r : Row) :
    (deriveNameDesc reg h r).text = r.text ∧ (deriveNameDesc reg h r).userData = r.userData := by
  unfold deriveNameDesc
  split
  · split
    · split <;> exact ⟨rfl, rfl⟩
    · exact ⟨rfl, rfl⟩
  · exact ⟨rfl, rfl⟩

theorem evenStr_of_normalize_even {txt : List Char}
    (h : (normalizeHex txt).length % 2 = 0) : evenStr txt = true := by
  unfold normalizeHex upperStr at h
  rw [List.length_map] at h
  unfold evenStr
  simpa using h

theorem goodStr_of_accepted {txt : List Char}
    (h : isHexStr (normalizeHex txt) = true) : goodStr txt = true := by
  rw [← isHexStr_normalize_eq_goodStr]
  exact h

theorem swapAdjacent_mem {rows : List Row} {j : Nat} {r : Row}
    (h : r ∈ swapAdjacent rows j) : r ∈ rows := by
  unfold swapAdjacent at h
  rcases h1 : rows.get? j with _ | a <;> rw [h1] at h
  · exact h
  · rcases h2 : rows.get? (j + 1) with _ | b <;> rw [h2] at h
    · exact h
    · rcases List.mem_or_eq_of_mem_set h with h3 | rfl
      · rcases List.mem_or_eq_of_mem_set h3 with h4 | rfl
        · exact h4
        · exact List.get?_mem h2
      · exact List.get?_mem h1

theorem track_fuel_invalid_step (fuel : Nat) (st : DocState) (i : Nat) (row : Row)
    (hget : st.rows.get? i = some row)
    (hbad : isHexStr (normalizeHex row.text) = false) :
    track_changes_fuel (fuel + 1) st i =
      if row.text = prevOf st i row then { st with errorShown := true }
      else
        track_changes_fuel fuel
          { st with errorShown := true,
                    rows := st.rows.set i { row with text := prevOf st i row } } i := by
  simp only [track_changes_fuel, hget, hbad, Bool.not_false, if_true]

theorem track_fuel_valid_step (fuel : Nat) (st : DocState) (i : Nat) (row : Row)
    (hget : st.rows.get? i = some row)
    (hok : isHexStr (normalizeHex row.text) = true) :
    track_changes_fuel (fuel + 1) st i =
      deriveAt
        (if row.userData = some (normalizeHex row.text) then
          { st with undoStack := (i, prevOf st i row) :: st.undoStack, redoStack := [] }
        else
          track_changes_fuel fuel
            { st with undoStack := (i, prevOf st i row) :: st.undoStack, redoStack := [],
                      rows := st.rows.set i
                        { row with userData := some (normalizeHex row.text) } } i)
        i (normalizeHex row.text) := by
  simp only [track_changes_fuel, hget, hok, Bool.not_true, Bool.false_eq_true, if_false]

theorem deriveAt_texts (st : DocState) (i : Nat) (h : List Char) :
    (deriveAt st i h).rows.map Row.text = st.rows.map Row.text := by
  unfold deriveAt
  rcases hg : st.rows.get? i with _ | row
  · rfl
  · simp only []
    rw [List.map_set, (deriveNameDesc_fields st.reg h row).1]
    apply set_get?_self
    rw [List.get?_map, hg]
    rfl

theorem deriveAt_errorShown (st : DocState) (i : Nat) (h : List Char) :
    (deriveAt st i h).errorShown = st.errorShown := by
  unfold deriveAt
  rcases hg : st.rows.get? i with _ | row <;> rfl

theorem cleanState_deriveAt {st : DocState} (hc : cleanState st) (i : Nat) (h : List Char) :
    cleanState (deriveAt st i h) := by
  obtain ⟨hrows, horig, hundo, hredo⟩ := hc
  unfold deriveAt
  rcases hg : st.rows.get? i with _ | row
  · exact ⟨hrows, horig, hundo, hredo⟩
  · refine ⟨?_, horig, hundo, hredo⟩
    intro r hr
    rcases List.mem_or_eq_of_mem_set hr with h4 | rfl
    · exact hrows r h4
    · obtain ⟨ht, hu⟩ := deriveNameDesc_fields st.reg h row
      have hrc := hrows row (List.get?_mem hg)
      constructor
      · rw [ht]
        exact hrc.1
      · intro v hv
        rw [hu] at hv
        exact hrc.2 v hv

theorem cleanState_track_fuel : ∀ fuel (st : DocState) (i : Nat), cleanState st →
    cleanState (track_changes_fuel fuel st i) := by
  intro fuel
  induction fuel with
  | zero => exact fun st i hc => hc
  | succ n ih =>
    intro st i hc
    obtain ⟨hrows, horig, hundo, hredo⟩ := hc
    rcases hget : st.rows.get? i with _ | row
    · simp only [track_changes_fuel, hget]
      exact ⟨hrows, horig, hundo, hredo⟩
    · have hrowc := hrows row (List.get?_mem hget)
      have hok : isHexStr (normalizeHex row.text) = true := by
        rw [isHexStr_normalize_eq_goodStr]
        exact hrowc.1.1
      rw [track_fuel_valid_step n st i row hget hok]
      have hprevc : cleanStr (prevOf st i row) := prevOf_clean horig hrowc.2
      apply cleanState_deriveAt
      by_cases hud : row.userData = some (normalizeHex row.text)
      · rw [if_pos hud]
        refine ⟨hrows, horig, ?_, fun e he => absurd he (List.not_mem_nil e)⟩
        intro e he
        rcases List.mem_cons.mp he with rfl | he
        · exact hprevc
        · exact hundo e he
      · rw [if_neg hud]
        apply ih
        refine ⟨?_, horig, ?_, fun e he => absurd he (List.not_mem_nil e)⟩
        · intro r hr
          rcases List.mem_or_eq_of_mem_set hr with h4 | rfl
          · exact hrows r h4
          · refine ⟨hrowc.1, ?_⟩
            intro v hv
            simp only at hv
            cases hv
            exact cleanStr_normalizeHex hrowc.1
        · intro e he
          rcases List.mem_cons.mp he with rfl | he
          · exact hprevc
          · exact hundo e he

theorem cleanState_track {st : DocState} (hc : cleanState st) (i : Nat) :
    cleanState (track_changes st i) :=
  cleanState_track_fuel 4 st i hc

theorem track_fuel_errorShown : ∀ fuel (st : DocState) (i : Nat), st.errorShown = true →
    (track_changes_fuel fuel st i).errorShown = true := by
  intro fuel
  induction fuel with
  | zero => exact fun st i h => h
  | succ n ih =>
    intro st i h
    rcases hget : st.rows.get? i with _ | row
    · simp only [track_changes_fuel, hget]
      exact h
    · by_cases hok : isHexStr (normalizeHex row.text) = true
      · rw [track_fuel_valid_step n st i row hget hok, deriveAt_errorShown]
        by_cases hud : row.userData = some (normalizeHex row.text)
        · rw [if_pos hud]
          exact h
        · rw [if_neg hud]
          exact ih _ i h
      · rw [track_fuel_invalid_step n st i row hget (by simpa using hok)]
        by_cases he : row.text = prevOf st i row
        · rw [if_pos he]
        · rw [if_neg he]
          exact ih _ i rfl

theorem track_fuel_texts : ∀ fuel (st : DocState) (i : Nat) (row : Row),
    st.rows.get? i = some row → isHexStr (normalizeHex row.text) = true →
    (track_changes_fuel fuel st i).rows.map Row.text = st.rows.map Row.text := by
  intro fuel
  induction fuel with
  | zero => exact fun st i row _ _ => rfl
  | succ n ih =>
    intro st i row hget hok
    have hlt : i < st.rows.length := by
      by_contra hcon
      rw [List.get?_eq_none.mpr (by omega)] at hget
      cases hget
    rw [track_fuel_valid_step n st i row hget hok, deriveAt_texts]
    by_cases hud : row.userData = some (normalizeHex row.text)
    · rw [if_pos hud]
    · rw [if_neg hud]
      set stN : DocState := { st with undoStack := (i, prevOf st i row) :: st.undoStack, redoStack := [], rows := st.rows.set i { row with userData := some (normalizeHex row.text) } } with hstN
      have hgetN : stN.rows.get? i = some { row with userData := some (normalizeHex row.text) } := by
        rw [hstN]
        simp only [List.get?_eq_getElem?]
        exact List.getElem?_set_self (by simpa using hlt)
      rw [ih stN i _ hgetN (by simpa using hok), hstN]
      simp only [List.map_set]
      apply set_get?_self
      rw [List.get?_map, hget]
      rfl

theorem currentHexes_eq_of_texts {s t : DocState}
    (h : s.rows.map Row.text = t.rows.map Row.text) : currentHexes s = currentHexes t := by
  unfold currentHexes
  have hs : s.rows.map (fun r => normalizeHex r.text)
      = (s.rows.map Row.text).map normalizeHex := by
    rw [List.map_map]
    rfl
  have ht : t.rows.map (fun r => normalizeHex r.text)
      = (t.rows.map Row.text).map normalizeHex := by
    rw [List.map_map]
    rfl
  rw [hs, ht, h]

theorem currentHexes_set_self {st : DocState} {i : Nat} {row r' : Row}
    (hget : st.rows.get? i = some row)
    (hval : normalizeHex r'.text = normalizeHex row.text) :
    (st.rows.set i r').map (fun r => normalizeHex r.text)
      = st.rows.map (fun r => normalizeHex r.text) := by
  rw [List.map_set]
  apply set_get?_self
  rw [List.get?_map, hget]
  simp [hval]

/-- C3: evaluation of the edit model at the failing input.  The
accepted edit `02` over the decoded row `01` pushes TWO undo entries —
`(0, "01")` from the text-change run and `(0, "02")` from the
`setData(Qt.UserRole, ...)` re-entry of `track_changes`.  `undo_hex_data`
then pops the spurious top entry `(0, "02")`, its `setText("02")` is a
no-change no-op, and its explicit `track_changes` call re-pushes
`(0, "02")` and clears the redo stack it had just pushed to: undo leaves
the document in exactly the state it was in — the pre-edit hex `01` is
NOT restored — and the immediately following `redo_hex_data` finds an
empty redo stack and does nothing. -/
theorem C3_redo_cleared :
    editedState.rows.map Row.text = [['0', '2']] ∧
    editedState.undoStack = [(0, ['0', '2']), (0, ['0', '1'])] ∧
    applyOp editedState .undo = editedState ∧
    (applyOp editedState .undo).rows.map Row.text = [['0', '2']] ∧
    (applyOp editedState .undo).redoStack = [] ∧
    applyOp (applyOp editedState .undo) .redo = applyOp editedState .undo := by
  refine ⟨?_, ?_, ?_, ?_, ?_, ?_⟩ <;> decide

/-- C7 (counterexample): moves never update `original_hex_values`, so
after loading the two-byte buffer `01 02` and moving row 0 down, row 0
holds `02` while `original_hex_values[0]` still holds `01`; the rejected
edit "gg" on row 0 then reverts the cell to the STALE original `01` —
the record's current hex value is NOT what it was before the failed
edit. -/
theorem C7_counterexample :
    (runOps (initState "Resident Evil 2" regAB)
        [.load [0x01, 0x02], .moveDown 0]).rows.map Row.text = [['0', '2'], ['0', '1']] ∧
    isHexStr (normalizeHex ['g', 'g']) = false ∧
    (runOps (initState "Resident Evil 2" regAB)
        [.load [0x01, 0x02], .moveDown 0, .edit 0 ['g', 'g']]).errorShown = true ∧
    (runOps (initState "Resident Evil 2" regAB)
        [.load [0x01, 0x02], .moveDown 0, .edit 0 ['g', 'g']]).rows.map Row.text
      = [['0', '1'], ['0', '1']] := by
  refine ⟨?_, ?_, ?_, ?_⟩ <;> decide

/-- C7 (amended): apply_edit first normalizes by removing separators
and upper-casing ("ab cd" becomes "ABCD"); if any remaining character
is not one of 0-9A-F (as for "gg"), the edit fails — the Invalid-Input
dialog is shown and the record's current hex is reverted to its
prev_value (the stored `Qt.UserRole` payload if present, otherwise the
normalized `original_hex_values` entry at the row's index).  In every
well-formed state — one where each row's prev_value agrees with its
current text up to normalization, which decode and edits maintain but
row moves can break by leaving the original entries stale — every row's
current normalized hex value is exactly what it was before the edit. -/
theorem C7_revert_amended :
    normalizeHex ['a', 'b', ' ', 'c', 'd'] = ['A', 'B', 'C', 'D'] ∧
    isHexStr (normalizeHex ['g', 'g']) = false ∧
    ∀ st i txt row, wfState st → isHexStr (normalizeHex txt) = false →
      st.rows.get? i = some row → row.text ≠ txt →
      currentHexes (applyOp st (.edit i txt)) = currentHexes st ∧
      (applyOp st (.edit i txt)).errorShown = true := by
  refine ⟨by decide, by decide, ?_⟩
  intro st i txt row hwf hbad hget hne
  have hlt : i < st.rows.length := by
    by_contra hcon
    rw [List.get?_eq_none.mpr (by omega)] at hget
    cases hget
  have hwfi : normalizeHex (prevOf st i row) = normalizeHex row.text := by
    have h := hwf i hlt
    rw [wfRowAt, hget] at h
    exact eq_of_beq h
  have happ : applyOp st (.edit i txt)
      = track_changes { st with errorShown := false, rows := st.rows.set i { row with text := txt } } i := by
    simp only [applyOp, userEdit, hget]
    rw [if_neg hne]
  rw [happ]
  set stA : DocState := { st with errorShown := false, rows := st.rows.set i { row with text := txt } } with hstA
  have hgetA : stA.rows.get? i = some { row with text := txt } := by
    rw [hstA]
    simp only [List.get?_eq_getElem?]
    exact List.getElem?_set_self (by simpa using hlt)
  have hprevA : prevOf stA i { row with text := txt } = prevOf st i row := by
    rw [hstA]
    simp [prevOf, originalAt]
  rw [show track_changes stA i = track_changes_fuel (3 + 1) stA i from rfl]
  rw [track_fuel_invalid_step 3 stA i _ hgetA (by simpa using hbad), hprevA]
  split_ifs with he
  · constructor
    · show currentHexes { stA with errorShown := true } = currentHexes st
      unfold currentHexes
      rw [show ({ stA with errorShown := true } : DocState).rows = stA.rows from rfl, hstA]
      apply currentHexes_set_self hget
      show normalizeHex txt = normalizeHex row.text
      simp only at he
      rw [he, hwfi]
    · rfl
  · set stB : DocState := { stA with errorShown := true, rows := stA.rows.set i { ({ row with text := txt } : Row) with text := prevOf st i row } } with hstB
    have hrowsB : stB.rows = st.rows.set i { row with text := prevOf st i row } := by
      rw [hstB, hstA]
      simp only []
      rw [List.set_set]
    have hgetB : stB.rows.get? i = some { row with text := prevOf st i row } := by
      rw [hrowsB]
      simp only [List.get?_eq_getElem?]
      exact List.getElem?_set_self (by simpa using hlt)
    refine ⟨?_, track_fuel_errorShown 3 stB i (by rw [hstB])⟩
    by_cases hv2 : isHexStr (normalizeHex (prevOf st i row)) = true
    · have htexts := track_fuel_texts 3 stB i _ hgetB (by simpa using hv2)
      rw [currentHexes_eq_of_texts htexts]
      unfold currentHexes
      rw [hrowsB]
      exact currentHexes_set_self hget hwfi
    · rw [show track_changes_fuel 3 stB i = track_changes_fuel (2 + 1) stB i from rfl]
      rw [track_fuel_invalid_step 2 stB i _ hgetB (by simpa using hv2)]
      have hprevB : prevOf stB i { row with text := prevOf st i row } = prevOf st i row := by
        rw [hstB, hstA]
        simp [prevOf, originalAt]
      rw [hprevB]
      split_ifs with he2
      · show currentHexes { stB with errorShown := true } = currentHexes st
        unfold currentHexes
        rw [show ({ stB with errorShown := true } : DocState).rows = stB.rows from rfl, hrowsB]
        exact currentHexes_set_self hget hwfi
      · exact absurd rfl he2

/-- C7 (witness for the amended theorem): in the well-formed state after
loading `01` and editing it to `02`, the edit "gg" is rejected with the
error dialog and leaves every row's current hex value unchanged. -/
theorem C7_revert_amended_witness :
    wfState editedState ∧
    isHexStr (normalizeHex ['g', 'g']) = false ∧
    currentHexes (applyOp editedState (.edit 0 ['g', 'g'])) = currentHexes editedState ∧
    (applyOp editedState (.edit 0 ['g', 'g'])).errorShown = true := by
  have hwf : wfState editedState := by
    unfold wfState
    decide
  have h := C7_revert_amended.2.2 editedState 0 ['g', 'g']
    ⟨"Unknown", ['0', '2'], some ['0', '2'], ""⟩ hwf (by decide) (by decide) (by decide)
  exact ⟨hwf, by decide, h.1, h.2⟩

theorem parseLoop_records_clean (game : String) (reg : Registry) {hexData : List Char}
    (hhex : ∀ c ∈ hexData, c ∈ hexDigitsU) :
    ∀ fuel pos r, r ∈ (parseLoop game reg hexData fuel pos).records → cleanStr r.text := by
  intro fuel
  induction fuel with
  | zero => intro pos r hr; simp [parseLoop] at hr
  | succ n ih =>
    intro pos r hr
    simp only [parseLoop] at hr
    by_cases hlt : pos < hexData.length
    · rw [if_pos hlt] at hr
      rcases hreg : registryLookup reg (pySlice hexData pos (pos + 2)) with _ | cands
      · simp only [hreg] at hr
        exact ih (pos + 2) r hr
      · simp only [hreg] at hr
        rcases hsel : selectStep game hexData pos (pySlice hexData pos (pos + 2)) cands
          with e | info
        · simp only [hsel] at hr
          simp at hr
        · simp only [hsel] at hr
          rcases hlen : info.lengthBytes? with _ | opcodeLength
          · simp only [hlen] at hr
            simp at hr
          · simp only [hlen] at hr
            by_cases hb : pos + opcodeLength * 2 > hexData.length
            · rw [if_pos hb] at hr
              simp at hr
            · rw [if_neg hb] at hr
              simp only [List.mem_cons] at hr
              rcases hr with rfl | hr
              · have hmem : ∀ c ∈ pySlice hexData pos (pos + opcodeLength * 2),
                    c ∈ hexDigitsU := by
                  intro c hc
                  simp only [pySlice] at hc
                  exact hhex c (List.mem_of_mem_drop (List.mem_of_mem_take hc))
                have hup : upperStr (pySlice hexData pos (pos + opcodeLength * 2))
                    = pySlice hexData pos (pos + opcodeLength * 2) := upperStr_fix hmem
                have hstrip : stripSpaces (group2 (pySlice hexData pos
                      (pos + opcodeLength * 2)))
                    = pySlice hexData pos (pos + opcodeLength * 2) :=
                  stripSpaces_group2 _ (fun c hc => hexU_ne_space c (hmem c hc))
                have hlength : (pySlice hexData pos (pos + opcodeLength * 2)).length
                    = opcodeLength * 2 := by
                  simp only [pySlice, List.length_take, List.length_drop]
                  omega
                show cleanStr (group2 (upperStr (pySlice hexData pos
                  (pos + opcodeLength * 2))))
                rw [hup]
                constructor
                · unfold goodStr
                  rw [hstrip]
                  rw [List.all_eq_true]
                  intro c hc
                  have hcu := hexU_toUpper_fix c (hmem c hc)
                  simp [hcu, hmem c hc]
                · unfold evenStr
                  rw [hstrip, hlength]
                  simp
              · exact ih _ r hr
    · rw [if_neg hlt] at hr
      simp at hr

theorem cleanState_applyOp {st : DocState} (hc : cleanState st) :
    ∀ op, evenEditOp op → cleanState (applyOp st op) := by
  obtain ⟨hrows, horig, hundo, hredo⟩ := hc
  intro op hop
  cases op with
  | edit i txt =>
    simp only [applyOp, userEdit]
    rcases hget : st.rows.get? i with _ | row
    · simp only [hget]
      exact ⟨hrows, horig, hundo, hredo⟩
    · simp only [hget]
      have hlt : i < st.rows.length := by
        by_contra hcon
        rw [List.get?_eq_none.mpr (by omega)] at hget
        cases hget
      have hrowc : cleanRow row := hrows row (List.get?_mem hget)
      by_cases hne : row.text = txt
      · rw [if_pos hne]
        exact ⟨hrows, horig, hundo, hredo⟩
      · rw [if_neg hne]
        set stA : DocState := { st with errorShown := false, rows := st.rows.set i { row with text := txt } } with hstA
        have hgetA : stA.rows.get? i = some { row with text := txt } := by
          rw [hstA]
          simp only [List.get?_eq_getElem?]
          exact List.getElem?_set_self (by simpa using hlt)
        have hprevA : prevOf stA i { row with text := txt } = prevOf st i row := by
          rw [hstA]
          simp [prevOf, originalAt]
        have hprevc : cleanStr (prevOf st i row) := prevOf_clean horig hrowc.2
        by_cases hv : isHexStr (normalizeHex txt) = true
        · apply cleanState_track
          rw [hstA]
          refine ⟨?_, horig, hundo, hredo⟩
          intro r hr
          rcases List.mem_or_eq_of_mem_set hr with h4 | rfl
          · exact hrows r h4
          · exact ⟨⟨goodStr_of_accepted hv, evenStr_of_normalize_even hop⟩, hrowc.2⟩
        · show cleanState (track_changes_fuel (3 + 1) stA i)
          rw [track_fuel_invalid_step 3 stA i _ hgetA (by simpa using hv), hprevA]
          by_cases he : ({ row with text := txt } : Row).text = prevOf st i row
          · rw [if_pos he]
            refine ⟨?_, horig, hundo, hredo⟩
            intro r hr
            rw [hstA] at hr
            rcases List.mem_or_eq_of_mem_set hr with h4 | rfl
            · exact hrows r h4
            · simp only at he
              refine ⟨?_, hrowc.2⟩
              show cleanStr txt
              rw [he]
              exact hprevc
          · rw [if_neg he]
            apply cleanState_track_fuel
            refine ⟨?_, horig, hundo, hredo⟩
            intro r hr
            rw [hstA] at hr
            simp only [List.set_set] at hr
            rcases List.mem_or_eq_of_mem_set hr with h4 | rfl
            · exact hrows r h4
            · exact ⟨hprevc, hrowc.2⟩
  | undo =>
    simp only [applyOp, undo_hex_data]
    rcases hst : st.undoStack with _ | ⟨⟨i, p⟩, rest⟩
    · exact ⟨hrows, horig, fun e he => absurd he (List.not_mem_nil e), hredo⟩
    · have hresty : ∀ e ∈ rest, cleanStr e.2 := by
        intro e he
        exact hundo e (by rw [hst]; exact List.mem_cons_of_mem _ he)
      have hpclean : cleanStr p :=
        hundo (i, p) (by rw [hst]; exact List.mem_cons_self _ _)
      rcases hget : st.rows.get? i with _ | row
      · simp only [hget]
        exact ⟨hrows, horig, hresty, hredo⟩
      · simp only [hget]
        have hrowc : cleanRow row := hrows row (List.get?_mem hget)
        have hredo2 : ∀ e ∈ ((i, row.text) :: st.redoStack : List (Nat × List Char)),
            cleanStr e.2 := by
          intro e he
          rcases List.mem_cons.mp he with rfl | he
          · exact hrowc.1
          · exact hredo e he
        apply cleanState_track
        by_cases hre : row.text = p
        · rw [if_pos hre]
          exact ⟨hrows, horig, hresty, hredo2⟩
        · rw [if_neg hre]
          apply cleanState_track
          refine ⟨?_, horig, hresty, hredo2⟩
          intro r hr
          rcases List.mem_or_eq_of_mem_set hr with h4 | rfl
          · exact hrows r h4
          · exact ⟨hpclean, hrowc.2⟩
  | redo =>
    simp only [applyOp, redo_hex_data]
    rcases hst : st.redoStack with _ | ⟨⟨i, p⟩, rest⟩
    · exact ⟨hrows, horig, hundo, fun e he => absurd he (List.not_mem_nil e)⟩
    · have hresty : ∀ e ∈ rest, cleanStr e.2 := by
        intro e he
        exact hredo e (by rw [hst]; exact List.mem_cons_of_mem _ he)
      have hpclean : cleanStr p :=
        hredo (i, p) (by rw [hst]; exact List.mem_cons_self _ _)
      rcases hget : st.rows.get? i with _ | row
      · simp only [hget]
        exact ⟨hrows, horig, hundo, hresty⟩
      · simp only [hget]
        have hrowc : cleanRow row := hrows row (List.get?_mem hget)
        have hundo2 : ∀ e ∈ ((i, row.text) :: st.undoStack : List (Nat × List Char)),
            cleanStr e.2 := by
          intro e he
          rcases List.mem_cons.mp he with rfl | he
          · exact hrowc.1
          · exact hundo e he
        apply cleanState_track
        by_cases hre : row.text = p
        · rw [if_pos hre]
          exact ⟨hrows, horig, hundo2, hresty⟩
        · rw [if_neg hre]
          apply cleanState_track
          refine ⟨?_, horig, hundo2, hresty⟩
          intro r hr
          rcases List.mem_or_eq_of_mem_set hr with h4 | rfl
          · exact hrows r h4
          · exact ⟨hpclean, hrowc.2⟩
  | moveUp i =>
    simp only [applyOp, move_row_up]
    by_cases hi : i = 0
    · rw [if_pos hi]
      exact ⟨hrows, horig, hundo, hredo⟩
    · rw [if_neg hi]
      exact ⟨fun r hr => hrows r (swapAdjacent_mem hr), horig, hundo, hredo⟩
  | moveDown i =>
    simp only [applyOp, move_row_down]
    by_cases hi : i + 1 = st.rows.length
    · rw [if_pos hi]
      exact ⟨hrows, horig, hundo, hredo⟩
    · rw [if_neg hi]
      exact ⟨fun r hr => hrows r (swapAdjacent_mem hr), horig, hundo, hredo⟩
  | load buf =>
    simp only [applyOp, load_scd_buffer]
    have hclean := @parseLoop_records_clean st.game st.reg (bytesToHex buf)
      (fun c hc => mem_bytesToHex hc) ((bytesToHex buf).length + 1) 0
    refine ⟨?_, ?_, hundo, hredo⟩
    · intro r hr
      simp only [List.mem_map] at hr
      obtain ⟨rec, hrec, rfl⟩ := hr
      refine ⟨hclean rec hrec, ?_⟩
      intro v hv
      cases hv
    · intro o ho
      simp only [List.mem_map] at ho
      obtain ⟨rec, hrec, rfl⟩ := ho
      exact hclean rec hrec
  | selectGame g reg2 =>
    simp only [applyOp, game_selected]
    exact ⟨fun r hr => absurd hr (List.not_mem_nil r),
      fun o ho => absurd ho (List.not_mem_nil o), hundo, hredo⟩

theorem cleanState_initState (game : String) (reg : Registry) :
    cleanState (initState game reg) :=
  ⟨fun r hr => absurd hr (List.not_mem_nil r),
   fun o ho => absurd ho (List.not_mem_nil o),
   fun e he => absurd he (List.not_mem_nil e),
   fun e he => absurd he (List.not_mem_nil e)⟩

theorem cleanState_runOps {st : DocState} (hc : cleanState st) :
    ∀ ops : List EditOp, (∀ op ∈ ops, evenEditOp op) → cleanState (runOps st ops) := by
  intro ops
  induction ops generalizing st with
  | nil => intro _; exact hc
  | cons op rest ih =>
    intro hall
    exact ih (cleanState_applyOp hc op (hall op (List.mem_cons_self _ _)))
      (fun o ho => hall o (List.mem_cons_of_mem _ ho))

theorem bytesFromHex_isSome : ∀ s : List Char, (∀ c ∈ s, (hexVal? c).isSome) →
    s.length % 2 = 0 → ∃ bs, bytesFromHex s = some bs
  | [], _, _ => ⟨[], rfl⟩
  | [a], _, hlen => by simp at hlen
  | a :: b :: t, hhex, hlen => by
    obtain ⟨va, hva⟩ := Option.isSome_iff_exists.mp (hhex a (by simp))
    obtain ⟨vb, hvb⟩ := Option.isSome_iff_exists.mp (hhex b (by simp))
    obtain ⟨rest, hrest⟩ := bytesFromHex_isSome t
      (fun c hc => hhex c (by simp [hc])) (by simp at hlen; omega)
    exact ⟨(va * 16 + vb) :: rest, by simp [bytesFromHex, hva, hvb, hrest]⟩

theorem flatten_length_even {l : List (List Char)}
    (h : ∀ x ∈ l, x.length % 2 = 0) : l.flatten.length % 2 = 0 := by
  induction l with
  | nil => simp
  | cons x t ih =>
    simp only [List.flatten_cons, List.length_append]
    have hx := h x (List.mem_cons_self _ _)
    have ht := ih (fun y hy => h y (List.mem_cons_of_mem _ hy))
    omega

/-- C8 (counterexample): after decoding the buffer `01`, the edit
`"ABC"` is accepted (all characters are hex digits; no length check
exists), producing a document whose concatenated, separator-free hex
string has odd length 3, so unhexing fails — the claimed even-length
invariant does not hold after every apply_edit. -/
theorem C8_counterexample :
    (applyOp loadedState (.edit 0 ['A', 'B', 'C'])).errorShown = false ∧
    concatStripped (applyOp loadedState (.edit 0 ['A', 'B', 'C'])) = ['A', 'B', 'C'] ∧
    (concatStripped (applyOp loadedState (.edit 0 ['A', 'B', 'C']))).length % 2 = 1 ∧
    bytesFromHex (concatStripped (applyOp loadedState (.edit 0 ['A', 'B', 'C']))) = none := by
  refine ⟨?_, ?_, ?_, ?_⟩ <;> decide

/-- C8 (amended): after every sequence of operations on the document
(decode, apply_edit, undo, redo, move) starting from the fresh
application state, the concatenation of all rows' hex cells in document
order with separators removed consists only of hexadecimal digit
characters (up to case); and provided every edit's normalized text has
even length — a condition apply_edit does not enforce — the
concatenation has even length and unhexing it succeeds. -/
theorem C8_concat_amended (game : String) (reg : Registry) (ops : List EditOp)
    (heven : ∀ op ∈ ops, evenEditOp op) :
    (∀ c ∈ concatStripped (runOps (initState game reg) ops), c.toUpper ∈ hexDigitsU) ∧
    (concatStripped (runOps (initState game reg) ops)).length % 2 = 0 ∧
    ∃ bs, bytesFromHex (concatStripped (runOps (initState game reg) ops)) = some bs := by
  have hclean := cleanState_runOps (cleanState_initState game reg) ops heven
  obtain ⟨hrows, _, _, _⟩ := hclean
  have hchars : ∀ c ∈ concatStripped (runOps (initState game reg) ops),
      c.toUpper ∈ hexDigitsU := by
    intro c hcmem
    unfold concatStripped at hcmem
    rw [List.mem_flatten] at hcmem
    obtain ⟨l, hl, hcl⟩ := hcmem
    rw [List.mem_map] at hl
    obtain ⟨t, ht, rfl⟩ := hl
    rw [List.mem_map] at ht
    obtain ⟨r, hr, rfl⟩ := ht
    have hgood := (hrows r hr).1.1
    unfold goodStr at hgood
    rw [List.all_eq_true] at hgood
    simpa using hgood c hcl
  have hlen : (concatStripped (runOps (initState game reg) ops)).length % 2 = 0 := by
    unfold concatStripped
    apply flatten_length_even
    intro x hx
    rw [List.mem_map] at hx
    obtain ⟨t, ht, rfl⟩ := hx
    rw [List.mem_map] at ht
    obtain ⟨r, hr, rfl⟩ := ht
    have heven2 := (hrows r hr).1.2
    unfold evenStr at heven2
    simpa using heven2
  exact ⟨hchars, hlen,
    bytesFromHex_isSome _ (fun c hcmem => toUpper_hexU_isSome (hchars c hcmem)) hlen⟩

/-- C8 (witness for the amended theorem): the load-then-edit sequence
with the even edit `02` yields a clean, even, unhexable concatenation. -/
theorem C8_concat_amended_witness :
    (∀ c ∈ concatStripped (runOps (initState "Resident Evil 2" regOne)
        [.load [0x01], .edit 0 ['0', '2']]), c.toUpper ∈ hexDigitsU) ∧
    (concatStripped (runOps (initState "Resident Evil 2" regOne)
        [.load [0x01], .edit 0 ['0', '2']])).length % 2 = 0 ∧
    ∃ bs, bytesFromHex (concatStripped (runOps (initState "Resident Evil 2" regOne)
        [.load [0x01], .edit 0 ['0', '2']])) = some bs := by
  exact C8_concat_amended "Resident Evil 2" regOne [.load [0x01], .edit 0 ['0', '2']]
    (by intro op hop
        simp only [List.mem_cons, List.not_mem_nil, or_false] at hop
        rcases hop with rfl | rfl
        · trivial
        · unfold evenEditOp
          decide)

end SCD